import Mathlib

/-!
Verification of the shared normalization, filtering, reconciliation and
aggregation core of a timesheet payout / missed-shift reporting service.

The source consists of a payout route (filter, currency parsing, bonus,
group-by-employee aggregation), a by-location payout route (same pipeline
without the location deny-list, emitting a per-shift snapshot for
re-aggregation), and a cross-reference route (composite-key anti-join of a
scheduled-shifts file against a timesheets file).

JavaScript numbers are modelled as rationals, strings as Lean strings with
explicit ASCII models of trim, toLowerCase and the whitespace class, objects
and Maps as insertion-ordered association lists, and null / undefined values
as Option.
-/

namespace Ecp

/-- ASCII whitespace characters of the JavaScript whitespace class used by
String.prototype.trim and the regular-expression class \s. -/
def jsWs (c : Char) : Bool :=
  c = ' ' || c = '\t' || c = '\n' || c = '\r' || c = '\x0B' || c = '\x0C'

/-- Drop whitespace from the front and the back of a character list. -/
def trimChars (l : List Char) : List Char :=
  ((l.dropWhile jsWs).reverse.dropWhile jsWs).reverse

/-- Model of JavaScript String.prototype.trim. -/
def jsTrim (s : String) : String := ⟨trimChars s.data⟩

/-- Model of JavaScript String.prototype.toLowerCase (ASCII range). -/
def jsLower (s : String) : String := ⟨s.data.map Char.toLower⟩

theorem dropWhile_idem (p : α → Bool) (l : List α) :
    (l.dropWhile p).dropWhile p = l.dropWhile p := by
  induction l with
  | nil => rfl
  | cons a t ih =>
    by_cases h : p a
    · simpa [List.dropWhile_cons, h] using ih
    · simp [List.dropWhile_cons, h]

theorem dropWhile_head_false {p : α → Bool} {a : α} {l : List α}
    (h : (a :: l).dropWhile p = a :: l) : p a = false := by
  cases hpa : p a with
  | false => rfl
  | true =>
    rw [List.dropWhile_cons, if_pos hpa] at h
    have hlen : (l.dropWhile p).length ≤ l.length := (List.dropWhile_sublist p).length_le
    rw [h] at hlen
    simp at hlen

theorem prefix_dropWhile_eq {p : α → Bool} {l t : List α}
    (hl : l.dropWhile p = l) (ht : t <+: l) : t.dropWhile p = t := by
  cases t with
  | nil => rfl
  | cons a t' =>
    obtain ⟨r, hr⟩ := ht
    subst hr
    rw [List.cons_append] at hl
    have ha : p a = false := dropWhile_head_false hl
    simp [List.dropWhile_cons, ha]

/-- The right-trim half of trimChars. -/
def rightTrim (p : α → Bool) (l : List α) : List α := (l.reverse.dropWhile p).reverse

theorem prefix_rightTrim (p : α → Bool) (l : List α) : rightTrim p l <+: l := by
  have hs : l.reverse.dropWhile p <:+ l.reverse := List.dropWhile_suffix p
  have := List.reverse_prefix.mpr hs
  simpa [rightTrim] using this

theorem rightTrim_idem (p : α → Bool) (l : List α) :
    rightTrim p (rightTrim p l) = rightTrim p l := by
  simp [rightTrim, dropWhile_idem]

theorem trimChars_idem (l : List Char) : trimChars (trimChars l) = trimChars l := by
  have hx : (l.dropWhile jsWs).dropWhile jsWs = l.dropWhile jsWs := dropWhile_idem _ _
  have h1 : trimChars l = rightTrim jsWs (l.dropWhile jsWs) := rfl
  have h2 : (trimChars l).dropWhile jsWs = trimChars l := by
    rw [h1]
    exact prefix_dropWhile_eq hx (prefix_rightTrim _ _)
  show rightTrim jsWs ((trimChars l).dropWhile jsWs) = trimChars l
  rw [h2, h1, rightTrim_idem]

theorem toNat_ofNat_of_valid {n : Nat} (h : n.isValidChar) : (Char.ofNat n).toNat = n := by
  rw [Char.ofNat, dif_pos h]
  rfl

theorem toLower_idem (c : Char) : c.toLower.toLower = c.toLower := by
  simp only [Char.toLower]
  by_cases h : c.toNat ≥ 65 ∧ c.toNat ≤ 90
  · have hv : Nat.isValidChar (c.toNat + 32) := Or.inl (by omega)
    have ht : (Char.ofNat (c.toNat + 32)).toNat = c.toNat + 32 := toNat_ofNat_of_valid hv
    rw [if_pos h, if_neg (by rw [ht]; omega)]
  · rw [if_neg h, if_neg h]

theorem jsWs_le_32 {c : Char} (h : jsWs c = true) : c.toNat ≤ 32 := by
  simp only [jsWs, Bool.or_eq_true, decide_eq_true_eq] at h
  rcases h with ((((h | h) | h) | h) | h) | h <;> subst h <;> decide

theorem jsWs_of_toNat_ge {c : Char} (h : 33 ≤ c.toNat) : jsWs c = false := by
  cases hc : jsWs c with
  | false => rfl
  | true => exact absurd (jsWs_le_32 hc) (by omega)

theorem jsWs_toLower (c : Char) : jsWs c.toLower = jsWs c := by
  simp only [Char.toLower]
  by_cases h : c.toNat ≥ 65 ∧ c.toNat ≤ 90
  · rw [if_pos h]
    have hv : Nat.isValidChar (c.toNat + 32) := Or.inl (by omega)
    have ht : (Char.ofNat (c.toNat + 32)).toNat = c.toNat + 32 := toNat_ofNat_of_valid hv
    have h1 : jsWs (Char.ofNat (c.toNat + 32)) = false := jsWs_of_toNat_ge (by rw [ht]; omega)
    have h2 : jsWs c = false := jsWs_of_toNat_ge (by omega)
    rw [h1, h2]
  · rw [if_neg h]

theorem dropWhile_map_comm {f : Char → Char} (hf : ∀ c, jsWs (f c) = jsWs c)
    (l : List Char) : (l.map f).dropWhile jsWs = (l.dropWhile jsWs).map f := by
  induction l with
  | nil => rfl
  | cons a t ih =>
    by_cases h : jsWs a
    · simp [List.dropWhile_cons, hf, h, ih]
    · simp [List.dropWhile_cons, hf, h]

theorem trimChars_map_toLower (l : List Char) :
    trimChars (l.map Char.toLower) = (trimChars l).map Char.toLower := by
  unfold trimChars
  rw [dropWhile_map_comm jsWs_toLower, ← List.map_reverse,
    dropWhile_map_comm jsWs_toLower, ← List.map_reverse]

theorem jsTrim_idem (s : String) : jsTrim (jsTrim s) = jsTrim s :=
  congrArg String.mk (trimChars_idem s.data)

theorem jsLower_idem (s : String) : jsLower (jsLower s) = jsLower s := by
  apply congrArg String.mk
  show (s.data.map Char.toLower).map Char.toLower = s.data.map Char.toLower
  rw [List.map_map]
  exact List.map_congr_left fun a _ => toLower_idem a

theorem jsTrim_jsLower_comm (s : String) : jsTrim (jsLower s) = jsLower (jsTrim s) :=
  congrArg String.mk (trimChars_map_toLower s.data)

/-- A raw parsed CSV record: the ordered field list of a JavaScript object, a
field value of none modelling null or undefined. -/
abbrev RawRecord := List (String × Option String)

/-- A normalized record: an insertion-ordered association list with string
keys and string values. -/
abbrev NormalizedRecord := List (String × String)

/-- JS object property write out[k] = v: an existing key keeps its position
and is updated in place, a new key is appended at the end. -/
def setKey : NormalizedRecord → String → String → NormalizedRecord
  | [], k, v => [(k, v)]
  | (k', v') :: rest, k, v =>
    if k' = k then (k, v) :: rest else (k', v') :: setKey rest k v

/-- Model of (v ?? '').toString(): null or undefined becomes the empty
string, a string is its own toString. -/
def jsToString (v : Option String) : String := v.getD ""

/-- Normalized form of an original column name: k.trim().toLowerCase(). -/
def normKey (k : String) : String := jsLower (jsTrim k)

/-- Normalized form of an original field value: (v ?? '').toString().trim(). -/
def normVal (v : Option String) : String := jsTrim (jsToString v)

/-- normalizeRowKeys from the source (identical in all three routes): every
entry is written to the output object under its trimmed, lower-cased key with
its stringified, trimmed value. -/
def normalizeRowKeys (input : RawRecord) : NormalizedRecord :=
  input.foldl (fun out kv => setKey out (normKey kv.1) (normVal kv.2)) []

/-- JS property read r[k] as used by the engine: an absent key behaves like
the empty string (both are falsy and both are mapped through ?? '' where a
default applies). -/
def getV (r : NormalizedRecord) (k : String) : String := (r.lookup k).getD ""

/-- JS property-existence test `k in r`. -/
def hasCol (r : NormalizedRecord) (k : String) : Bool := (r.lookup k).isSome

/-- View a normalized record as a raw record again: its string values are
their own toString, never null. -/
def asRaw (r : NormalizedRecord) : RawRecord := r.map (fun p => (p.1, some p.2))

theorem lookup_setKey (l : NormalizedRecord) (k v k') :
    (setKey l k v).lookup k' = if k' = k then some v else l.lookup k' := by
  induction l with
  | nil =>
    by_cases h : k' = k <;>
      simp [setKey, List.lookup_cons, h, beq_false_of_ne]
  | cons p rest ih =>
    obtain ⟨k1, v1⟩ := p
    by_cases h1 : k1 = k
    · subst h1
      by_cases h2 : k' = k1 <;>
        simp [setKey, List.lookup_cons, h2, beq_false_of_ne]
    · by_cases h2 : k' = k1
      · have h3 : ¬ k' = k := fun hh => h1 (h2.symm.trans hh)
        simp [setKey, h1, List.lookup_cons, h2, h3]
      · simp [setKey, h1, List.lookup_cons, beq_false_of_ne h2, ih]

theorem lookup_normalizeRowKeys (input : RawRecord) (k : String) :
    (normalizeRowKeys input).lookup k
      = ((input.filter (fun p => normKey p.1 = k)).getLast?).map (fun p => normVal p.2) := by
  rw [normalizeRowKeys]
  induction input using List.reverseRecOn with
  | nil => simp [List.lookup]
  | append_singleton l p ih =>
    rw [List.foldl_append, List.foldl_cons, List.foldl_nil, lookup_setKey, List.filter_append]
    by_cases h : normKey p.1 = k
    · simp [List.filter_cons, h]
    · rw [if_neg (fun he => h he.symm), ih]
      simp [List.filter_cons, h]

/-- Keys of a record, in order. -/
def keysOf (l : NormalizedRecord) : List String := l.map Prod.fst

theorem setKey_of_not_mem {l : NormalizedRecord} {k : String} (h : k ∉ keysOf l) (v : String) :
    setKey l k v = l ++ [(k, v)] := by
  induction l with
  | nil => simp [setKey]
  | cons p rest ih =>
    obtain ⟨k1, v1⟩ := p
    simp only [keysOf, List.map_cons, List.mem_cons] at h
    push_neg at h
    have h1 : ¬ k1 = k := fun he => h.1 he.symm
    simp [setKey, h1, ih (by simpa [keysOf] using h.2)]

theorem keysOf_setKey_mem : ∀ {l : NormalizedRecord} {k : String}, k ∈ keysOf l →
    ∀ v, keysOf (setKey l k v) = keysOf l := by
  intro l
  induction l with
  | nil => intro k h v; simp [keysOf] at h
  | cons p rest ih =>
    intro k h v
    obtain ⟨k1, v1⟩ := p
    by_cases h1 : k1 = k
    · subst h1
      simp [setKey, keysOf]
    · have h2 : k ∈ keysOf rest := by
        rcases (by simpa [keysOf] using h : k = k1 ∨ k ∈ keysOf rest) with hh | hh
        · exact absurd hh (fun he => h1 he.symm)
        · exact hh
      have hrw := ih h2 v
      simp only [keysOf] at hrw
      simp [setKey, h1, keysOf, hrw]

theorem keysOf_setKey_not_mem {l : NormalizedRecord} {k : String} (h : k ∉ keysOf l) (v) :
    keysOf (setKey l k v) = keysOf l ++ [k] := by
  rw [setKey_of_not_mem h v]
  simp [keysOf]

theorem mem_setKey {p : String × String} {l k v} (h : p ∈ setKey l k v) :
    p ∈ l ∨ p = (k, v) := by
  induction l with
  | nil => simp [setKey] at h; simp [h]
  | cons q rest ih =>
    obtain ⟨k1, v1⟩ := q
    by_cases h1 : k1 = k
    · subst h1
      simp [setKey] at h
      rcases h with h | h
      · right; simp [h]
      · left; simp [h]
    · simp [setKey, h1] at h
      rcases h with h | h
      · left; simp [h]
      · rcases ih h with h' | h'
        · left; simp [h']
        · right; exact h'

theorem nodup_keysOf_setKey {l : NormalizedRecord} (hl : (keysOf l).Nodup) (k v) :
    (keysOf (setKey l k v)).Nodup := by
  by_cases h : k ∈ keysOf l
  · rw [keysOf_setKey_mem h v]
    exact hl
  · rw [keysOf_setKey_not_mem h v]
    simp [List.nodup_append, hl, h]

theorem nodup_keysOf_normalizeRowKeys (input : RawRecord) :
    (keysOf (normalizeRowKeys input)).Nodup := by
  rw [normalizeRowKeys]
  have main : ∀ (l : RawRecord) (acc : NormalizedRecord), (keysOf acc).Nodup →
      (keysOf (l.foldl (fun out kv => setKey out (normKey kv.1) (normVal kv.2)) acc)).Nodup := by
    intro l
    induction l with
    | nil => intro acc h; simpa using h
    | cons p rest ih =>
      intro acc h
      exact ih _ (nodup_keysOf_setKey h _ _)
  exact main input [] (by simp [keysOf])

/-- A pair already in canonical form: its key and value are fixed by
normalization. -/
def normFixed (p : String × String) : Prop := normKey p.1 = p.1 ∧ jsTrim p.2 = p.2

theorem normKey_idem (k : String) : normKey (normKey k) = normKey k := by
  unfold normKey
  rw [jsTrim_jsLower_comm, jsTrim_idem, jsLower_idem]

theorem normFixed_normPair (k : String) (v : Option String) :
    normFixed (normKey k, normVal v) := by
  constructor
  · exact normKey_idem k
  · show jsTrim (normVal v) = normVal v
    unfold normVal
    exact jsTrim_idem _

theorem normalizeRowKeys_pairs_fixed (input : RawRecord) :
    ∀ p ∈ normalizeRowKeys input, normFixed p := by
  rw [normalizeRowKeys]
  have main : ∀ (l : RawRecord) (acc : NormalizedRecord), (∀ p ∈ acc, normFixed p) →
      ∀ p ∈ l.foldl (fun out kv => setKey out (normKey kv.1) (normVal kv.2)) acc, normFixed p := by
    intro l
    induction l with
    | nil => intro acc h; simpa using h
    | cons q rest ih =>
      intro acc h
      refine ih _ (fun p hp => ?_)
      rcases mem_setKey hp with h' | h'
      · exact h p h'
      · subst h'; exact normFixed_normPair _ _
  exact main input [] (by simp)

theorem normalizeRowKeys_fixed {l : NormalizedRecord}
    (hnd : (keysOf l).Nodup) (hp : ∀ p ∈ l, normFixed p) :
    normalizeRowKeys (asRaw l) = l := by
  rw [normalizeRowKeys, asRaw]
  have main : ∀ (t : NormalizedRecord) (acc : NormalizedRecord),
      (∀ p ∈ t, normFixed p) → (∀ k ∈ keysOf t, k ∉ keysOf acc) → (keysOf t).Nodup →
      (t.map (fun p => (p.1, some p.2))).foldl
        (fun out kv => setKey out (normKey kv.1) (normVal kv.2)) acc = acc ++ t := by
    intro t
    induction t with
    | nil => intro acc _ _ _; simp
    | cons p rest ih =>
      intro acc hfix hdisj hnd'
      obtain ⟨k, v⟩ := p
      have hk : normKey k = k := (hfix (k, v) (by simp)).1
      have hv : normVal (some v) = v := by
        simpa [normVal, jsToString] using (hfix (k, v) (by simp)).2
      simp only [List.map_cons, List.foldl_cons, hk, hv]
      rw [setKey_of_not_mem (hdisj k (by simp [keysOf])) v]
      rw [ih (acc ++ [(k, v)]) (fun q hq => hfix q (by simp [hq]))
        (fun k' hk' => ?_) (by simpa [keysOf] using hnd'.of_cons)]
      · simp
      · simp only [keysOf, List.map_append, List.mem_append] at hk' ⊢
        push_neg
        constructor
        · exact hdisj k' (by simp [keysOf, hk'])
        · simp only [List.map_cons, List.map_nil, List.mem_singleton]
          intro he
          subst he
          have := hnd'
          simp only [keysOf, List.map_cons, List.nodup_cons] at this
          exact this.1 (by simpa [keysOf] using hk')
  exact main l [] hp (by simp [keysOf]) hnd

/-- C9: normalizing an already-normalized record yields the same record:
the second pass maps every key and value of the first pass to itself and the
first pass produced pairwise-distinct keys, so the rebuild is the identity. -/
theorem normalizeRowKeys_idempotent (input : RawRecord) :
    normalizeRowKeys (asRaw (normalizeRowKeys input)) = normalizeRowKeys input :=
  normalizeRowKeys_fixed (nodup_keysOf_normalizeRowKeys input)
    (normalizeRowKeys_pairs_fixed input)

/-- C7 counterexample: the two distinct original column names "A" and "a"
coincide after trimming and lower-casing, and the value "x" of the field
named "A" is not represented anywhere in the normalized record, so
normalization is not loss-free under key collisions as the claim states. -/
theorem normalizeRowKeys_collision_loses_fields :
    normKey "A" = normKey "a"
    ∧ normalizeRowKeys [("A", some "x"), ("a", some "y")] = [("a", "y")]
    ∧ (normalizeRowKeys [("A", some "x"), ("a", some "y")]).lookup (normKey "A") = some "y" := by
  decide

/-- C7 amended: looking up any normalized column name in the normalized
record yields the trimmed string value of the LAST original field whose name
trims and lower-cases to it (none when no original field does); in
particular every field whose normalized name is unique in the record is
represented with its trimmed value, null and missing values become the empty
string, but when two distinct original names coincide after normalization the
later field overwrites the earlier one. -/
theorem normalizeRowKeys_last_field_wins (input : RawRecord) (k : String) :
    (normalizeRowKeys input).lookup k
      = ((input.filter (fun p => normKey p.1 = k)).getLast?).map (fun p => normVal p.2) :=
  lookup_normalizeRowKeys input k

/-- Addition of rationals through mkRat. JavaScript number arithmetic is
modelled by exact rational arithmetic; the mkRat form makes concrete runs of
the pipeline computable by the kernel and is proved equal to ordinary
rational addition below. -/
def qadd (a b : ℚ) : ℚ := mkRat (a.num * (b.den : Int) + b.num * (a.den : Int)) (a.den * b.den)

/-- Subtraction of rationals through mkRat. -/
def qsub (a b : ℚ) : ℚ := mkRat (a.num * (b.den : Int) - b.num * (a.den : Int)) (a.den * b.den)

/-- Division of a rational by a natural number through mkRat (0 when the
divisor is 0, matching rational division). -/
def qdivNat (a : ℚ) (n : Nat) : ℚ := mkRat a.num (a.den * n)

theorem qadd_eq (a b : ℚ) : qadd a b = a + b := by
  have ha : ((a.den : ℚ)) ≠ 0 := by exact_mod_cast a.den_nz
  have hb : ((b.den : ℚ)) ≠ 0 := by exact_mod_cast b.den_nz
  rw [qadd, Rat.mkRat_eq_div]
  conv_rhs => rw [← Rat.num_div_den a, ← Rat.num_div_den b]
  rw [div_add_div _ _ ha hb]
  push_cast
  ring_nf

theorem qsub_eq (a b : ℚ) : qsub a b = a - b := by
  have ha : ((a.den : ℚ)) ≠ 0 := by exact_mod_cast a.den_nz
  have hb : ((b.den : ℚ)) ≠ 0 := by exact_mod_cast b.den_nz
  rw [qsub, Rat.mkRat_eq_div]
  conv_rhs => rw [← Rat.num_div_den a, ← Rat.num_div_den b]
  rw [div_sub_div _ _ ha hb]
  push_cast
  ring_nf

theorem qdivNat_eq (a : ℚ) (n : Nat) : qdivNat a n = a / (n : ℚ) := by
  have ha : ((a.den : ℚ)) ≠ 0 := by exact_mod_cast a.den_nz
  rw [qdivNat, Rat.mkRat_eq_div]
  conv_rhs => rw [← Rat.num_div_den a]
  push_cast
  rw [div_div]

/-- Characters removed by the value.replace(/[$,\s]/g, '') step of
cleanCurrency: dollar signs, commas and whitespace. -/
def isStripped (c : Char) : Bool := c = '$' || c = ',' || jsWs c

/-- Numeric value of a digit sequence, most significant digit first. -/
def digitsVal (l : List Char) : Nat := l.foldl (fun a c => a * 10 + (c.toNat - 48)) 0

/-- Split an optional leading sign character off a character list; true
means a minus sign was found. -/
def signSplit (l : List Char) : Bool × List Char :=
  match l with
  | [] => (false, [])
  | c :: rest =>
    if c = '-' then (true, rest) else if c = '+' then (false, rest) else (false, c :: rest)

/-- Exponent part accepted by parseFloat after the mantissa: an e or E, an
optional sign and digits; when no digit follows, the exponent marker is not
part of the number and the exponent is zero. -/
def expVal (l : List Char) : Int :=
  match l with
  | [] => 0
  | c :: rest =>
    if c = 'e' ∨ c = 'E' then
      let sl := signSplit rest
      let ds := sl.2.takeWhile Char.isDigit
      if ds.isEmpty then 0 else if sl.1 then -(digitsVal ds : Int) else (digitsVal ds : Int)
    else 0

/-- Syntactic parts of a finite parseFloat result: sign, integer digits,
fraction digits with their count, and decimal exponent. -/
structure FloatParse where
  neg : Bool
  intPart : Nat
  fracPart : Nat
  fracLen : Nat
  exp : Int
deriving DecidableEq

/-- Exact rational value of a parsed decimal literal:
(-1)^neg * (intPart + fracPart / 10^fracLen) * 10^exp, written with mkRat
over integer arithmetic so that the kernel can evaluate it. -/
def FloatParse.toQ (f : FloatParse) : ℚ :=
  let m : Int := f.intPart * 10 ^ f.fracLen + f.fracPart
  let sm : Int := if f.neg then -m else m
  if 0 ≤ f.exp then mkRat (sm * 10 ^ f.exp.toNat) (10 ^ f.fracLen)
  else mkRat sm (10 ^ f.fracLen * 10 ^ (-f.exp).toNat)

/-- Model of JavaScript Number.parseFloat on the stripped residual (which
contains no whitespace): an optional sign, then either an Infinity literal or
a decimal mantissa with optional fraction and optional exponent, parsing the
longest valid prefix and ignoring trailing characters. none models a
non-finite result (NaN when no digits are found, or an Infinity literal),
which the Number.isFinite guard in the source rejects. -/
def parseFloatRepr (l : List Char) : Option FloatParse :=
  let sl := signSplit l
  if sl.2.take 8 = "Infinity".data then none
  else
    let ip := sl.2.takeWhile Char.isDigit
    let l2 := sl.2.dropWhile Char.isDigit
    let fl : List Char × List Char :=
      match l2 with
      | [] => ([], [])
      | c :: rest =>
        if c = '.' then (rest.takeWhile Char.isDigit, rest.dropWhile Char.isDigit)
        else ([], c :: rest)
    if ip.isEmpty && fl.1.isEmpty then none
    else some ⟨sl.1, digitsVal ip, digitsVal fl.1, fl.1.length, expVal fl.2⟩

/-- Rational value of a parseFloat run, none meaning a non-finite result. -/
def parseFloatQ (l : List Char) : Option ℚ := (parseFloatRepr l).map FloatParse.toQ

/-- The string-or-number input type of cleanCurrency. -/
inductive JsValue where
  | num (q : ℚ)
  | str (s : String)

/-- cleanCurrency from the source (identical in both payout routes): a
number is returned as-is; a string is stripped of dollar signs, commas and
whitespace and parsed with Number.parseFloat, any non-finite parse result
being replaced by 0. -/
def cleanCurrency : JsValue → ℚ
  | .num q => q
  | .str s => (parseFloatQ (s.data.filter (fun c => !isStripped c))).getD 0

/-- C8: cleanCurrency returns numeric input as-is; a string is stripped of
dollar signs, commas and whitespace and the residual parsed as a decimal
number with 0 for a failed (non-finite) parse; it is total (never raises,
and a NaN parse is replaced by 0 rather than propagated), and it maps
"$1,234.56" to 1234.56, "" to 0, "abc" to 0, any number q to q and "-$5"
to -5. -/
theorem cleanCurrency_spec :
    (∀ q : ℚ, cleanCurrency (.num q) = q)
    ∧ (∀ s : String, cleanCurrency (.str s)
        = (parseFloatQ (s.data.filter (fun c => !isStripped c))).getD 0)
    ∧ cleanCurrency (.str "$1,234.56") = 1234.56
    ∧ cleanCurrency (.str "") = 0
    ∧ cleanCurrency (.str "abc") = 0
    ∧ cleanCurrency (.str "-$5") = -5 := by
  refine ⟨fun q => rfl, fun s => rfl, ?_, by decide, by decide, by decide⟩
  rw [show (1234.56 : ℚ) = mkRat 123456 100 from by norm_num]
  decide

/-- Fixed location deny-list of the whole-dataset payout report. -/
def EXCLUDED_LOCATIONS : List String :=
  ["Blu on the Hudson", "Chart House", "Haven", "Ruth's Chris"]

/-- Fixed employee deny-list shared by both payout reports; note that it is
NOT lower-cased at initialization and that the record values it is compared
against are trimmed but not lower-cased either. -/
def EXCLUDED_EMPLOYEES : List String :=
  ["Nick C", "Troy", "Andy", "Arod", "Danny M", "Jay", "Totals", ""]

/-- A payout shift row extracted from a normalized record. -/
structure ShiftRecord where
  employee : String
  location : String
  tips : ℚ
  cost : ℚ
deriving DecidableEq

/-- Access r[k] ?? 0 for the tips and cost columns: an absent key yields the
number 0, a present key the string value. -/
def currencyField (r : NormalizedRecord) (k : String) : JsValue :=
  match r.lookup k with
  | some s => .str s
  | none => .num 0

/-- Normalization step shared by both payout routes: rows =
parsed.map(normalizeRowKeys). -/
def normalizedRows (parsed : List RawRecord) : List NormalizedRecord :=
  parsed.map normalizeRowKeys

/-- Filtering and extraction stage of the payout pipeline, with the
location deny-list as a parameter: the whole-dataset route uses
EXCLUDED_LOCATIONS, the by-location route performs no location exclusion
(the empty list). Drops rows with an empty trimmed employee, an employee in
the employee deny-list (exact string match) or a location in the supplied
location deny-list, then extracts employee, location and the parsed tips
and cost currency fields. -/
def filteredShifts (excludeLocations : List String) (parsed : List RawRecord) : List ShiftRecord :=
  ((normalizedRows parsed).filter (fun r =>
      !(jsTrim (getV r "employee") = "")
      && !(EXCLUDED_EMPLOYEES.contains (jsTrim (getV r "employee")))
      && !(excludeLocations.contains (jsTrim (getV r "location"))))).map
    (fun r =>
      { employee := jsTrim (getV r "employee"), location := jsTrim (getV r "location"),
        tips := cleanCurrency (currencyField r "tips"),
        cost := cleanCurrency (currencyField r "cost") })

/-- The bonus attached by the withBonus stage: 13.5 when the location is
Fleming's Condo and cost exceeds tips, else 0 (13.5 written as mkRat 135 10
so that concrete runs compute; mkRat 135 10 = 13.5 is proved below). -/
def bonusOf (s : ShiftRecord) : ℚ :=
  if s.location = "Fleming's Condo" ∧ s.cost > s.tips then mkRat 135 10 else 0

/-- An owed shift: a shift row with its bonus and amount owed. -/
structure OwedShift where
  employee : String
  location : String
  tips : ℚ
  cost : ℚ
  bonus : ℚ
  amount_owed : ℚ
deriving DecidableEq

/-- The withBonus map, the cost > tips filter and the amount_owed map of
both payout routes: amount_owed = cost - tips + bonus. -/
def sourceRows (excludeLocations : List String) (parsed : List RawRecord) : List OwedShift :=
  (((filteredShifts excludeLocations parsed).map (fun s => (s, bonusOf s))).filter
      (fun p => p.1.cost > p.1.tips)).map
    (fun p =>
      { employee := p.1.employee, location := p.1.location, tips := p.1.tips, cost := p.1.cost,
        bonus := p.2, amount_owed := qadd (qsub p.1.cost p.1.tips) p.2 })

theorem mkRat_135_10 : (mkRat 135 10 : ℚ) = 13.5 := by norm_num

/-- The Map.set accumulation step shared by byEmployee (whole-dataset
route) and initialAgg (by-location route and its client recompute): an
existing employee entry keeps its position and accumulates total and count,
a new employee is appended. -/
def bumpEmployee : List (String × ℚ × Nat) → String → ℚ → List (String × ℚ × Nat)
  | [], e, a => [(e, a, 1)]
  | (e', t, c) :: rest, e, a =>
    if e' = e then (e', qadd t a, c + 1) :: rest else (e', t, c) :: bumpEmployee rest e a

/-- Group a list of (employee, amount) pairs, accumulating per-employee
total and count in first-seen order. -/
def groupTotals (l : List (String × ℚ)) : List (String × ℚ × Nat) :=
  l.foldl (fun m p => bumpEmployee m p.1 p.2) []

/-- One output row of the payout report. -/
structure EmployeeSummary where
  Employee : String
  TotalAmountOwed : ℚ
  ShiftsThatWereOwed : Nat
  AverageOwedPerShift : ℚ
deriving DecidableEq

/-- Summary row of one employee group: the average is total / count, 0 for
an empty group. -/
def mkSummary (p : String × ℚ × Nat) : EmployeeSummary :=
  { Employee := p.1, TotalAmountOwed := p.2.1, ShiftsThatWereOwed := p.2.2,
    AverageOwedPerShift := if p.2.2 > 0 then qdivNat p.2.1 p.2.2 else 0 }

/-- Stable insertion of an element into a list sorted by le: the element is
placed after every existing element that compares le to it. -/
def insertSorted (le : α → α → Bool) (x : α) : List α → List α
  | [] => [x]
  | y :: ys => if le y x then y :: insertSorted le x ys else x :: y :: ys

/-- Stable ascending sort, modelling Array.prototype.sort (which is
required to be stable) with a comparator. -/
def sortByLe (le : α → α → Bool) : List α → List α
  | [] => []
  | x :: xs => insertSorted le x (sortByLe le xs)

theorem perm_insertSorted (le : α → α → Bool) (x : α) (l : List α) :
    List.Perm (insertSorted le x l) (x :: l) := by
  induction l with
  | nil => rfl
  | cons y ys ih =>
    by_cases h : le y x
    · simp only [insertSorted, if_pos h]
      exact (ih.cons y).trans (List.Perm.swap x y ys)
    · simp [insertSorted, if_neg h]

theorem perm_sortByLe (le : α → α → Bool) (l : List α) : List.Perm (sortByLe le l) l := by
  induction l with
  | nil => rfl
  | cons x xs ih =>
    exact (perm_insertSorted le x (sortByLe le xs)).trans (ih.cons x)

/-- The emitted summary rows: grouped by employee and sorted ascending by
employee name (the locale-aware localeCompare comparison is modelled as
code-point order; no claim below depends on the resulting order, only on
the row multiset). -/
def summaryRows (excludeLocations : List String) (parsed : List RawRecord) :
    List EmployeeSummary :=
  sortByLe (fun a b => a.Employee ≤ b.Employee)
    ((groupTotals ((sourceRows excludeLocations parsed).map
      (fun r => (r.employee, r.amount_owed)))).map mkSummary)

/-- Overall total owed: the reduce over all included owed rows. -/
def totalAmount (excludeLocations : List String) (parsed : List RawRecord) : ℚ :=
  (sourceRows excludeLocations parsed).foldl (fun s r => qadd s r.amount_owed) 0

/-- Overall count of owed shifts. -/
def totalShifts (excludeLocations : List String) (parsed : List RawRecord) : Nat :=
  (sourceRows excludeLocations parsed).length

/-- Overall average owed per owed shift, 0 when there are no owed shifts. -/
def totalAvg (excludeLocations : List String) (parsed : List RawRecord) : ℚ :=
  if totalShifts excludeLocations parsed > 0 then
    qdivNat (totalAmount excludeLocations parsed) (totalShifts excludeLocations parsed)
  else 0

/-- C2: a filtered row becomes an owed row exactly when cost > tips
(strict); every owed row carries bonus = 13.5 iff its location is Fleming's
Condo (and cost > tips), else 0, and amount_owed = cost - tips + bonus; in
particular cost=20, tips=5 at Fleming's Condo yields amount_owed = 28.5 and
the same row elsewhere yields 15. -/
theorem owed_rows_bonus_rule (excludeLocations : List String) (parsed : List RawRecord) :
    (sourceRows excludeLocations parsed
      = (filteredShifts excludeLocations parsed).filterMap (fun s =>
          if s.cost > s.tips then
            some { employee := s.employee, location := s.location, tips := s.tips,
                   cost := s.cost,
                   bonus := if s.location = "Fleming's Condo" ∧ s.cost > s.tips
                     then (13.5 : ℚ) else 0,
                   amount_owed := s.cost - s.tips
                     + (if s.location = "Fleming's Condo" ∧ s.cost > s.tips
                        then (13.5 : ℚ) else 0) }
          else none))
    ∧ sourceRows [] [[("employee", some "E"), ("location", some "Fleming's Condo"),
        ("tips", some "$5"), ("cost", some "$20")]]
      = [{ employee := "E", location := "Fleming's Condo", tips := 5, cost := 20,
           bonus := 13.5, amount_owed := 28.5 }]
    ∧ sourceRows [] [[("employee", some "E"), ("location", some "Elsewhere"),
        ("tips", some "$5"), ("cost", some "$20")]]
      = [{ employee := "E", location := "Elsewhere", tips := 5, cost := 20,
           bonus := 0, amount_owed := 15 }] := by
  refine ⟨?_, ?_, ?_⟩
  · rw [sourceRows]
    induction filteredShifts excludeLocations parsed with
    | nil => rfl
    | cons s l ih =>
      by_cases h : s.cost > s.tips
      · simpa [List.filter_cons, List.filterMap_cons, h, bonusOf, qadd_eq, qsub_eq,
          mkRat_135_10] using ih
      · simpa [List.filter_cons, List.filterMap_cons, h] using ih
  · rw [show (13.5 : ℚ) = mkRat 135 10 from by norm_num,
      show (28.5 : ℚ) = mkRat 285 10 from by norm_num]
    decide
  · rw [show (15 : ℚ) = mkRat 15 1 from by norm_num]
    decide

theorem totals_bump (m : List (String × ℚ × Nat)) (e : String) (a : ℚ) :
    ((bumpEmployee m e a).map (fun p => p.2.1)).sum = (m.map (fun p => p.2.1)).sum + a
    ∧ ((bumpEmployee m e a).map (fun p => p.2.2)).sum = (m.map (fun p => p.2.2)).sum + 1 := by
  induction m with
  | nil => simp [bumpEmployee]
  | cons q rest ih =>
    obtain ⟨e', t, c⟩ := q
    by_cases h : e' = e
    · simp only [bumpEmployee, if_pos h, List.map_cons, List.sum_cons, qadd_eq]
      constructor
      · ring
      · omega
    · simp only [bumpEmployee, if_neg h, List.map_cons, List.sum_cons, ih.1, ih.2]
      constructor
      · ring
      · omega

theorem totals_groupTotals (l : List (String × ℚ)) :
    ((groupTotals l).map (fun p => p.2.1)).sum = (l.map Prod.snd).sum
    ∧ ((groupTotals l).map (fun p => p.2.2)).sum = l.length := by
  rw [groupTotals]
  have main : ∀ (t : List (String × ℚ)) (m : List (String × ℚ × Nat)),
      (((t.foldl (fun m p => bumpEmployee m p.1 p.2) m).map (fun p => p.2.1)).sum
          = (m.map (fun p => p.2.1)).sum + (t.map Prod.snd).sum)
      ∧ (((t.foldl (fun m p => bumpEmployee m p.1 p.2) m).map (fun p => p.2.2)).sum
          = (m.map (fun p => p.2.2)).sum + t.length) := by
    intro t
    induction t with
    | nil => intro m; simp
    | cons p rest ih =>
      intro m
      obtain ⟨hm1, hm2⟩ := ih (bumpEmployee m p.1 p.2)
      obtain ⟨hb1, hb2⟩ := totals_bump m p.1 p.2
      constructor
      · rw [List.foldl_cons, hm1, hb1, List.map_cons, List.sum_cons]
        ring
      · rw [List.foldl_cons, hm2, hb2, List.length_cons]
        omega
  obtain ⟨h1, h2⟩ := main l []
  constructor
  · simpa using h1
  · simpa using h2

theorem foldl_qadd_amounts (l : List OwedShift) (init : ℚ) :
    l.foldl (fun s r => qadd s r.amount_owed) init
      = init + (l.map (fun r => r.amount_owed)).sum := by
  induction l generalizing init with
  | nil => simp
  | cons r rest ih =>
    rw [List.foldl_cons, ih, qadd_eq, List.map_cons, List.sum_cons]
    ring

/-- C3: across the emitted summary rows, total_owed sums to the overall
totals amount and shift_count sums to the overall shift count; the overall
average is the overall amount divided by the overall count (0 when empty),
computed across all included owed rows rather than from per-employee
averages. -/
theorem payout_totals_invariant (excludeLocations : List String) (parsed : List RawRecord) :
    ((summaryRows excludeLocations parsed).map (fun s => s.TotalAmountOwed)).sum
        = totalAmount excludeLocations parsed
    ∧ ((summaryRows excludeLocations parsed).map (fun s => s.ShiftsThatWereOwed)).sum
        = totalShifts excludeLocations parsed
    ∧ totalAvg excludeLocations parsed
        = (if 0 < totalShifts excludeLocations parsed then
            totalAmount excludeLocations parsed / (totalShifts excludeLocations parsed : ℚ)
          else 0) := by
  have hperm := perm_sortByLe (fun a b : EmployeeSummary => a.Employee ≤ b.Employee)
    ((groupTotals ((sourceRows excludeLocations parsed).map
      (fun r => (r.employee, r.amount_owed)))).map mkSummary)
  obtain ⟨hg1, hg2⟩ := totals_groupTotals
    ((sourceRows excludeLocations parsed).map (fun r => (r.employee, r.amount_owed)))
  refine ⟨?_, ?_, ?_⟩
  · rw [summaryRows, (hperm.map (fun s => s.TotalAmountOwed)).sum_eq, List.map_map]
    show ((groupTotals ((sourceRows excludeLocations parsed).map
        (fun r => (r.employee, r.amount_owed)))).map (fun p => p.2.1)).sum = _
    rw [hg1, List.map_map, totalAmount, foldl_qadd_amounts, zero_add]
    rfl
  · rw [summaryRows, (hperm.map (fun s => s.ShiftsThatWereOwed)).sum_eq, List.map_map]
    show ((groupTotals ((sourceRows excludeLocations parsed).map
        (fun r => (r.employee, r.amount_owed)))).map (fun p => p.2.2)).sum = _
    rw [hg2, totalShifts]
    simp
  · rw [totalAvg]
    by_cases h : 0 < totalShifts excludeLocations parsed
    · rw [if_pos h, if_pos h, qdivNat_eq]
    · rw [if_neg h, if_neg h]

theorem fst_of_bumpEmployee {x : String} {m : List (String × ℚ × Nat)} {e a}
    (h : x ∈ (bumpEmployee m e a).map Prod.fst) : x ∈ m.map Prod.fst ∨ x = e := by
  induction m with
  | nil =>
    right
    simpa [bumpEmployee] using h
  | cons q rest ih =>
    obtain ⟨e', t, c⟩ := q
    by_cases he : e' = e
    · subst he
      simp only [bumpEmployee, if_pos rfl, List.map_cons] at h ⊢
      exact Or.inl h
    · simp only [bumpEmployee, if_neg he, List.map_cons] at h ⊢
      rcases List.mem_cons.mp h with h1 | h1
      · exact Or.inl (List.mem_cons.mpr (Or.inl h1))
      · rcases ih h1 with h2 | h2
        · exact Or.inl (List.mem_cons.mpr (Or.inr h2))
        · exact Or.inr h2

theorem fst_of_groupTotals {p : String × ℚ × Nat} {l : List (String × ℚ)}
    (h : p ∈ groupTotals l) : p.1 ∈ l.map Prod.fst := by
  rw [groupTotals] at h
  have main : ∀ (t : List (String × ℚ)) (m : List (String × ℚ × Nat)),
      p ∈ t.foldl (fun m q => bumpEmployee m q.1 q.2) m →
      p.1 ∈ m.map Prod.fst ∨ p.1 ∈ t.map Prod.fst := by
    intro t
    induction t with
    | nil => intro m hm; left; exact List.mem_map_of_mem Prod.fst hm
    | cons q rest ih =>
      intro m hm
      rcases ih (bumpEmployee m q.1 q.2) hm with h' | h'
      · rcases fst_of_bumpEmployee h' with h'' | h''
        · left; exact h''
        · right; simp [h'']
      · right; simp [h']
  rcases main l [] h with h' | h'
  · simp at h'
  · exact h'

theorem sourceRows_employee_ok {excludeLocations : List String} {parsed : List RawRecord}
    {r : OwedShift} (h : r ∈ sourceRows excludeLocations parsed) :
    r.employee ≠ "" ∧ r.employee ∉ EXCLUDED_EMPLOYEES := by
  rw [sourceRows] at h
  obtain ⟨p, hp, rfl⟩ := List.mem_map.mp h
  obtain ⟨hp1, -⟩ := List.mem_filter.mp hp
  obtain ⟨s, hs, rfl⟩ := List.mem_map.mp hp1
  rw [filteredShifts] at hs
  obtain ⟨r0, hr0, rfl⟩ := List.mem_map.mp hs
  obtain ⟨-, hcond⟩ := List.mem_filter.mp hr0
  simp only [Bool.and_eq_true, Bool.not_eq_true', decide_eq_false_iff_not,
    List.contains_eq_any_beq, Bool.not_eq_true, List.any_eq_false, beq_iff_eq] at hcond
  refine ⟨hcond.1.1, fun hmem => ?_⟩
  exact absurd rfl (hcond.1.2 _ hmem)

/-- C5 counterexample: the employee exclusion match is case-sensitive in the
payout route (neither the deny-list nor the record value is lower-cased
there), so the row with employee "troy" — a casing of the excluded name
"Troy" — does appear in the payout output, contradicting the claimed
effective case-insensitivity. -/
theorem excluded_employee_case_cex :
    "Troy" ∈ EXCLUDED_EMPLOYEES
    ∧ jsLower "troy" = jsLower "Troy"
    ∧ (summaryRows EXCLUDED_LOCATIONS [[("employee", some "troy"), ("location", some "L"),
        ("tips", some "$1"), ("cost", some "$5")]]).map (fun s => s.Employee) = ["troy"] := by
  refine ⟨by decide, by decide, by decide⟩

/-- C5 amended: payout filtering drops every record whose trimmed employee
is empty or is a member of the fixed exclusion set Nick C, Troy, Andy, Arod,
Danny M, Jay, Totals, "" under EXACT, case-sensitive string comparison (the
exclusion set is not lowered at initialization and record values are only
trimmed), so no summary row carries an empty or excluded employee name;
other casings such as "troy" or "TROY" are not excluded. -/
theorem excluded_employee_never_in_output (excludeLocations : List String)
    (parsed : List RawRecord) :
    ∀ s ∈ summaryRows excludeLocations parsed,
      s.Employee ≠ "" ∧ s.Employee ∉ EXCLUDED_EMPLOYEES := by
  intro s hs
  rw [summaryRows] at hs
  have hs2 := (perm_sortByLe (fun a b : EmployeeSummary => a.Employee ≤ b.Employee)
    _).mem_iff.mp hs
  obtain ⟨p, hp, rfl⟩ := List.mem_map.mp hs2
  have hkey := fst_of_groupTotals hp
  rw [List.map_map] at hkey
  obtain ⟨r, hr, hre⟩ := List.mem_map.mp hkey
  have hok := sourceRows_employee_ok hr
  show p.1 ≠ "" ∧ p.1 ∉ EXCLUDED_EMPLOYEES
  rw [← hre]
  exact hok

/-- C5 witness: a concrete run in which the single summary row carries the
non-excluded employee "Alice". -/
theorem excluded_employee_never_in_output_witness :
    ({ Employee := "Alice", TotalAmountOwed := 4, ShiftsThatWereOwed := 1,
        AverageOwedPerShift := 4 } : EmployeeSummary)
      ∈ summaryRows EXCLUDED_LOCATIONS [[("employee", some "Alice"),
          ("location", some "L"), ("tips", some "$1"), ("cost", some "$5")]]
    ∧ ("Alice" ≠ "" ∧ "Alice" ∉ EXCLUDED_EMPLOYEES) := by
  refine ⟨by decide, ?_⟩
  exact excluded_employee_never_in_output EXCLUDED_LOCATIONS
    [[("employee", some "Alice"), ("location", some "L"), ("tips", some "$1"),
      ("cost", some "$5")]]
    { Employee := "Alice", TotalAmountOwed := 4, ShiftsThatWereOwed := 1,
      AverageOwedPerShift := 4 } (by decide)

/-- One row of the per-shift snapshot emitted by the by-location route for
client-side re-aggregation. -/
structure ClientRow where
  employee : String
  location : String
  amountOwed : ℚ
deriving DecidableEq

/-- The OwedShift snapshot of the by-location route: employee, location and
amount owed of every owed row, produced with no location exclusion. -/
def clientRows (parsed : List RawRecord) : List ClientRow :=
  (sourceRows [] parsed).map
    (fun r => { employee := r.employee, location := r.location, amountOwed := r.amount_owed })

/-- First-occurrence deduplication, modelling Array.from(new Set(...)). -/
def firstDedup (l : List String) : List String :=
  l.foldl (fun acc x => if acc.contains x then acc else acc ++ [x]) []

/-- The sorted distinct location list exposed by the by-location route. -/
def allLocations (parsed : List RawRecord) : List String :=
  sortByLe (fun a b => a ≤ b) (firstDedup ((clientRows parsed).map (fun r => r.location)))

theorem mem_firstDedup (x : String) (l : List String) : x ∈ firstDedup l ↔ x ∈ l := by
  rw [firstDedup]
  have main : ∀ (t : List String) (acc : List String),
      x ∈ t.foldl (fun acc y => if acc.contains y then acc else acc ++ [y]) acc
        ↔ x ∈ acc ∨ x ∈ t := by
    intro t
    induction t with
    | nil => intro acc; simp
    | cons y rest ih =>
      intro acc
      rw [List.foldl_cons, ih]
      by_cases h : acc.contains y = true
      · have hy : y ∈ acc := by simpa [List.contains, List.elem_eq_mem] using h
        rw [if_pos h]
        constructor
        · rintro (h1 | h1)
          · exact Or.inl h1
          · exact Or.inr (List.mem_cons.mpr (Or.inr h1))
        · rintro (h1 | h1)
          · exact Or.inl h1
          · rcases List.mem_cons.mp h1 with h2 | h2
            · exact Or.inl (h2 ▸ hy)
            · exact Or.inr h2
      · rw [if_neg h]
        simp only [List.mem_append, List.mem_singleton, List.mem_cons]
        tauto
  rw [main l []]
  simp

theorem filter_map_comm {α β} (f : α → β) (p : β → Bool) (l : List α) :
    (l.map f).filter p = (l.filter (fun a => p (f a))).map f := by
  induction l with
  | nil => rfl
  | cons a t ih => by_cases h : p (f a) <;> simp [List.filter_cons, h, ih]

theorem filter_and_right {α} (p q : α → Bool) (l : List α) :
    l.filter (fun a => p a && q a) = (l.filter p).filter q := by
  induction l with
  | nil => rfl
  | cons a t ih =>
    cases hp : p a with
    | false => simp [List.filter_cons, hp, ih]
    | true =>
      cases hq : q a with
      | false => simp [List.filter_cons, hp, hq, ih]
      | true => simp [List.filter_cons, hp, hq, ih]

theorem filteredShifts_locFilter (E : List String) (parsed : List RawRecord) :
    filteredShifts E parsed
      = (filteredShifts [] parsed).filter (fun s => !(E.contains s.location)) := by
  rw [filteredShifts, filteredShifts, filter_map_comm, filter_and_right, filter_and_right]
  simp only [List.contains, List.elem_nil, Bool.not_false, List.filter_true, Bool.and_true]
  rw [filter_and_right]

theorem sourceRows_locFilter (E : List String) (parsed : List RawRecord) :
    sourceRows E parsed = (sourceRows [] parsed).filter (fun r => !(E.contains r.location)) := by
  rw [sourceRows, sourceRows, filteredShifts_locFilter E parsed]
  generalize filteredShifts [] parsed = l
  induction l with
  | nil => rfl
  | cons s l ih =>
    by_cases hE : s.location ∈ E
    · by_cases hc : s.cost > s.tips <;>
        simpa [List.filter_cons, List.contains, List.elem_eq_mem, hE, hc] using ih
    · by_cases hc : s.cost > s.tips <;>
        simpa [List.filter_cons, List.contains, List.elem_eq_mem, hE, hc] using ih

theorem location_mem_allLocations {parsed : List RawRecord} {o : OwedShift}
    (h : o ∈ sourceRows [] parsed) : o.location ∈ allLocations parsed := by
  rw [allLocations]
  refine (perm_sortByLe _ _).mem_iff.mpr ?_
  rw [mem_firstDedup, clientRows, List.map_map]
  exact List.mem_map.mpr ⟨o, h, rfl⟩

/-- Modelled on the claim's left-hand side: the snapshot restricted to rows
whose location lies in the selected set S. -/
def restrictedClientRows (S : List String) (parsed : List RawRecord) : List ClientRow :=
  (clientRows parsed).filter (fun r => S.contains r.location)

/-- Re-running the grouping and sorting stages on the restricted snapshot. -/
def restrictSummaries (S : List String) (parsed : List RawRecord) : List EmployeeSummary :=
  sortByLe (fun a b => a.Employee ≤ b.Employee)
    ((groupTotals ((restrictedClientRows S parsed).map
      (fun r => (r.employee, r.amountOwed)))).map mkSummary)

/-- Re-running the totals stage on the restricted snapshot: total amount,
shift count and average. -/
def restrictTotals (S : List String) (parsed : List RawRecord) : ℚ × Nat × ℚ :=
  ((restrictedClientRows S parsed).foldl (fun t r => qadd t r.amountOwed) 0,
   (restrictedClientRows S parsed).length,
   if (restrictedClientRows S parsed).length > 0 then
     qdivNat ((restrictedClientRows S parsed).foldl (fun t r => qadd t r.amountOwed) 0)
       ((restrictedClientRows S parsed).length)
   else 0)

theorem restricted_eq_sourceRows (S : List String) (parsed : List RawRecord) :
    restrictedClientRows S parsed
      = (sourceRows ((allLocations parsed).filter (fun x => !(S.contains x))) parsed).map
          (fun r => { employee := r.employee, location := r.location,
                      amountOwed := r.amount_owed }) := by
  rw [restrictedClientRows, clientRows, filter_map_comm,
    sourceRows_locFilter ((allLocations parsed).filter (fun x => !(S.contains x))) parsed]
  congr 1
  refine List.filter_congr (fun r hr => ?_)
  have hmem : r.location ∈ allLocations parsed := location_mem_allLocations hr
  show S.contains r.location
      = !(((allLocations parsed).filter (fun x => !(S.contains x))).contains r.location)
  by_cases hS : S.contains r.location = true
  · rw [hS]
    have hSm : r.location ∈ S := by simpa [List.contains, List.elem_eq_mem] using hS
    simp [List.contains, List.elem_eq_mem, List.mem_filter, hSm]
  · have hSf : S.contains r.location = false := by
      cases hx : S.contains r.location
      · rfl
      · exact absurd hx hS
    have hSm : r.location ∉ S := by simpa [List.contains, List.elem_eq_mem] using hSf
    rw [hSf]
    simp [List.contains, List.elem_eq_mem, List.mem_filter, hmem, hSm]

/-- C4: for every subset S of the snapshot's locations (and in fact for any
location list S at all), restricting the by-location snapshot to rows whose
location is in S and re-running grouping, sorting and totals yields exactly
the summary rows and totals of a from-scratch payout run on the same raw
records with the location exclusion set allLocations minus S. -/
theorem reaggregation_consistency (S : List String) (parsed : List RawRecord) :
    restrictSummaries S parsed
        = summaryRows ((allLocations parsed).filter (fun x => !(S.contains x))) parsed
    ∧ restrictTotals S parsed
        = (totalAmount ((allLocations parsed).filter (fun x => !(S.contains x))) parsed,
           totalShifts ((allLocations parsed).filter (fun x => !(S.contains x))) parsed,
           totalAvg ((allLocations parsed).filter (fun x => !(S.contains x))) parsed) := by
  have hrows := restricted_eq_sourceRows S parsed
  constructor
  · rw [restrictSummaries, summaryRows, hrows, List.map_map]
    rfl
  · rw [restrictTotals, hrows, totalAmount, totalShifts, totalAvg, totalAmount, totalShifts,
      List.foldl_map, List.length_map]

/-- The reconciliation key columns. -/
def KEY_COLUMNS : List String := ["employee", "date", "location"]

/-- Employee ignore-list of the cross-reference route, lower-cased once at
initialization. -/
def IGNORED_EMPLOYEES : List String :=
  (["Luke Whelan", "Tony", "Arod", "Danny M", "Aquib", "Nick C", "Andy", "Troy", "Rony",
    "Alexander M Kiwowicz", "Michael C", "Jay", "Dave", "Nick T"]).map jsLower

/-- Location ignore-list of the cross-reference route, lower-cased once at
initialization. -/
def IGNORED_LOCATIONS : List String :=
  (["Blu on the Hudson", "Ruth's Chris", "Haven", "Chart House",
    "Fleming's Edgewater"]).map jsLower

/-- Candidate column aliases probed for the scheduled start time. -/
def SCHEDULED_START_CANDIDATES : List String :=
  ["start_time", "start time", "start", "scheduled_start", "scheduled start", "shift start"]

/-- Candidate column aliases probed for the scheduled end time. -/
def SCHEDULED_END_CANDIDATES : List String :=
  ["end_time", "end time", "end", "scheduled_end", "scheduled end", "shift end"]

/-- findFirstExistingColumn from the source: the first candidate name
present as a column of the row, none when no candidate matches. -/
def findFirstExistingColumn (row : NormalizedRecord) (candidates : List String) :
    Option String :=
  candidates.find? (fun cand => hasCol row cand)

/-- The ignore filter applied to both files: a record is kept when its
employee is empty or its lower-cased employee is not ignored, and its
location is empty or its lower-cased location is not ignored (an empty field
is never treated as ignored). -/
def keepRow (r : NormalizedRecord) : Bool :=
  (getV r "employee" = "" || !(IGNORED_EMPLOYEES.contains (jsLower (getV r "employee"))))
  && (getV r "location" = "" || !(IGNORED_LOCATIONS.contains (jsLower (getV r "location"))))

/-- Normalized and filtered scheduled records. -/
def filteredScheduled (scheduledParsed : List RawRecord) : List NormalizedRecord :=
  (scheduledParsed.map normalizeRowKeys).filter keepRow

/-- Normalized and filtered timesheet records. -/
def filteredTimesheets (timesheetsParsed : List RawRecord) : List NormalizedRecord :=
  (timesheetsParsed.map normalizeRowKeys).filter keepRow

/-- keyOf from the source: the composite reconciliation key, the three
normalized field values joined with the two-character delimiter. -/
def keyOf (r : NormalizedRecord) : String :=
  getV r "employee" ++ "||" ++ getV r "date" ++ "||" ++ getV r "location"

/-- KEY_COLUMNS.every(k => r[k]): every key field present and non-empty. -/
def hasAllKeys (r : NormalizedRecord) : Bool :=
  KEY_COLUMNS.all (fun k => !(getV r k = ""))

/-- The worked-shift membership set: keys of the filtered timesheet records
whose three key fields are all non-empty. -/
def workedSet (timesheetsParsed : List RawRecord) : List String :=
  ((filteredTimesheets timesheetsParsed).filter hasAllKeys).map keyOf

/-- The detected start column: probed on the first filtered scheduled
record, none when the filtered scheduled set is empty. -/
def startColOf (scheduledParsed : List RawRecord) : Option String :=
  match filteredScheduled scheduledParsed with
  | [] => none
  | r :: _ => findFirstExistingColumn r SCHEDULED_START_CANDIDATES

/-- The detected end column, probed like the start column. -/
def endColOf (scheduledParsed : List RawRecord) : Option String :=
  match filteredScheduled scheduledParsed with
  | [] => none
  | r :: _ => findFirstExistingColumn r SCHEDULED_END_CANDIDATES

/-- One reported missed shift: date, location and, when both start and end
columns were detected, the scheduled start and end values. -/
structure MissedEntry where
  date : String
  location : String
  sched : Option (String × String)
deriving DecidableEq

/-- Map.get ?? [] followed by push and Map.set: append the entry to the
employee's group, keeping group order, appending a new group at the end. -/
def pushEntry : List (String × List MissedEntry) → String → MissedEntry →
    List (String × List MissedEntry)
  | [], e, x => [(e, [x])]
  | (e', xs) :: rest, e, x =>
    if e' = e then (e', xs ++ [x]) :: rest else (e', xs) :: pushEntry rest e x

/-- The record emitted for one missed scheduled shift. -/
def mkEntry (startCol endCol : Option String) (r : NormalizedRecord) : MissedEntry :=
  { date := getV r "date", location := getV r "location",
    sched :=
      match startCol, endCol with
      | some sc, some ec => some (getV r sc, getV r ec)
      | _, _ => none }

/-- The main loop of the cross-reference route: walk the filtered scheduled
records in order, skip records missing a key field, and for each record
whose key is not in the worked set increment the count and push an entry
into its employee's group. -/
def runMissed (scheduledParsed timesheetsParsed : List RawRecord) :
    Nat × List (String × List MissedEntry) :=
  (filteredScheduled scheduledParsed).foldl
    (fun st r =>
      if hasAllKeys r && !((workedSet timesheetsParsed).contains (keyOf r)) then
        (st.1 + 1,
         pushEntry st.2 (getV r "employee")
           (mkEntry (startColOf scheduledParsed) (endColOf scheduledParsed) r))
      else st)
    (0, [])

/-- The scheduled records reported as missed, in scheduled-file order. -/
def missedRecords (scheduledParsed timesheetsParsed : List RawRecord) :
    List NormalizedRecord :=
  (filteredScheduled scheduledParsed).filter
    (fun r => hasAllKeys r && !((workedSet timesheetsParsed).contains (keyOf r)))

/-- Key-field triple equality of two normalized records. -/
def sameKeyTriple (t r : NormalizedRecord) : Prop :=
  getV t "employee" = getV r "employee" ∧ getV t "date" = getV r "date"
    ∧ getV t "location" = getV r "location"

instance (t r : NormalizedRecord) : Decidable (sameKeyTriple t r) := by
  rw [sameKeyTriple]
  infer_instance

/-- No key field of the record contains the pipe character used by the
composite-key delimiter. -/
def pipeFreeKeys (r : NormalizedRecord) : Prop :=
  ∀ k ∈ KEY_COLUMNS, '|' ∉ (getV r k).data

instance (r : NormalizedRecord) : Decidable (pipeFreeKeys r) := by
  rw [pipeFreeKeys]
  infer_instance

theorem sum_lengths_pushEntry (m : List (String × List MissedEntry)) (e : String)
    (x : MissedEntry) :
    ((pushEntry m e x).map (fun g => g.2.length)).sum
      = (m.map (fun g => g.2.length)).sum + 1 := by
  induction m with
  | nil => simp [pushEntry]
  | cons g rest ih =>
    obtain ⟨e', xs⟩ := g
    by_cases h : e' = e
    · simp [pushEntry, h]
      omega
    · simp [pushEntry, h, ih]
      omega

/-- C10: the reported missed-shift count equals the total number of emitted
missed entries, i.e. the sum over the employee groups of their sizes: the
loop increments the count exactly when it pushes an entry. -/
theorem missed_count_consistent (scheduledParsed timesheetsParsed : List RawRecord) :
    (runMissed scheduledParsed timesheetsParsed).1
      = ((runMissed scheduledParsed timesheetsParsed).2.map (fun g => g.2.length)).sum := by
  rw [runMissed]
  have main : ∀ (t : List NormalizedRecord) (st : Nat × List (String × List MissedEntry)),
      st.1 = (st.2.map (fun g => g.2.length)).sum →
      (t.foldl
        (fun st r =>
          if hasAllKeys r && !((workedSet timesheetsParsed).contains (keyOf r)) then
            (st.1 + 1,
             pushEntry st.2 (getV r "employee")
               (mkEntry (startColOf scheduledParsed) (endColOf scheduledParsed) r))
          else st)
        st).1
      = ((t.foldl
          (fun st r =>
            if hasAllKeys r && !((workedSet timesheetsParsed).contains (keyOf r)) then
              (st.1 + 1,
               pushEntry st.2 (getV r "employee")
                 (mkEntry (startColOf scheduledParsed) (endColOf scheduledParsed) r))
            else st)
          st).2.map (fun g => g.2.length)).sum := by
    intro t
    induction t with
    | nil => intro st h; exact h
    | cons r rest ih =>
      intro st h
      rw [List.foldl_cons]
      by_cases hc : (hasAllKeys r
          && !((workedSet timesheetsParsed).contains (keyOf r))) = true
      · rw [if_pos hc]
        exact ih _ (by rw [h, sum_lengths_pushEntry])
      · rw [if_neg hc]
        exact ih _ h
  exact main _ (0, []) (by simp)

theorem mem_workedSet_iff {timesheetsParsed : List RawRecord} {s : String} :
    (workedSet timesheetsParsed).contains s = true
      ↔ ∃ t ∈ filteredTimesheets timesheetsParsed, hasAllKeys t = true ∧ keyOf t = s := by
  rw [workedSet]
  simp only [List.contains, List.elem_eq_mem, decide_eq_true_eq, List.mem_map,
    List.mem_filter]
  constructor
  · rintro ⟨t, ⟨ht1, ht2⟩, ht3⟩
    exact ⟨t, ht1, ht2, ht3⟩
  · rintro ⟨t, ht1, ht2, ht3⟩
    exact ⟨t, ⟨ht1, ht2⟩, ht3⟩

theorem mem_missedRecords_iff {S T : List RawRecord} {r : NormalizedRecord}
    (hr : r ∈ filteredScheduled S) :
    r ∈ missedRecords S T
      ↔ (hasAllKeys r = true ∧ (workedSet T).contains (keyOf r) = false) := by
  rw [missedRecords, List.mem_filter]
  constructor
  · rintro ⟨-, h⟩
    rw [Bool.and_eq_true] at h
    exact ⟨h.1, by simpa using h.2⟩
  · rintro ⟨h1, h2⟩
    exact ⟨hr, by rw [Bool.and_eq_true]; exact ⟨h1, by rw [h2]; rfl⟩⟩

theorem keepRow_of_sameKeyTriple {t r : NormalizedRecord} (h : sameKeyTriple t r) :
    keepRow t = keepRow r := by
  rw [keepRow, keepRow, h.1, h.2.2]

theorem keyOf_of_sameKeyTriple {t r : NormalizedRecord} (h : sameKeyTriple t r) :
    keyOf t = keyOf r := by
  rw [keyOf, keyOf, h.1, h.2.1, h.2.2]

theorem hasAllKeys_of_sameKeyTriple {t r : NormalizedRecord} (h : sameKeyTriple t r) :
    hasAllKeys t = hasAllKeys r := by
  simp only [hasAllKeys, KEY_COLUMNS, List.all_cons, List.all_nil, h.1, h.2.1, h.2.2]

theorem append_pipe_inj : ∀ {a a' u u' : List Char},
    '|' ∉ a → '|' ∉ a' → a ++ '|' :: u = a' ++ '|' :: u' → a = a' ∧ u = u' := by
  intro a
  induction a with
  | nil =>
    intro a' u u' _ ha' h
    cases a' with
    | nil => simpa using h
    | cons b bs =>
      rw [List.nil_append, List.cons_append] at h
      injection h with h1 h2
      exact absurd (h1 ▸ List.mem_cons_self b bs) (fun hm => ha' hm)
  | cons c cs ih =>
    intro a' u u' ha ha' h
    cases a' with
    | nil =>
      rw [List.nil_append, List.cons_append] at h
      injection h with h1 h2
      exact absurd (h1 ▸ List.mem_cons_self c cs) (fun hm => ha hm)
    | cons b bs =>
      rw [List.cons_append, List.cons_append] at h
      injection h with h1 h2
      have hcs : '|' ∉ cs := fun hm => ha (List.mem_cons_of_mem c hm)
      have hbs : '|' ∉ bs := fun hm => ha' (List.mem_cons_of_mem b hm)
      obtain ⟨he, hu⟩ := ih hcs hbs h2
      exact ⟨by rw [h1, he], hu⟩

theorem keyOf_inj {t r : NormalizedRecord}
    (ht : pipeFreeKeys t) (hr : pipeFreeKeys r) (h : keyOf t = keyOf r) :
    sameKeyTriple t r := by
  have hd : (keyOf t).data = (keyOf r).data := congrArg String.data h
  rw [keyOf, keyOf] at hd
  simp only [String.data_append, List.append_assoc, List.cons_append, List.nil_append] at hd
  have hte : '|' ∉ (getV t "employee").data := ht "employee" (by decide)
  have htd : '|' ∉ (getV t "date").data := ht "date" (by decide)
  have htl : '|' ∉ (getV t "location").data := ht "location" (by decide)
  have hre : '|' ∉ (getV r "employee").data := hr "employee" (by decide)
  have hrd : '|' ∉ (getV r "date").data := hr "date" (by decide)
  have hrl : '|' ∉ (getV r "location").data := hr "location" (by decide)
  obtain ⟨he, hrest⟩ := append_pipe_inj hte hre hd
  injection hrest with h1 hrest
  obtain ⟨hdte, hrest2⟩ := append_pipe_inj htd hrd hrest
  injection hrest2 with h2 hrest2
  refine ⟨congrArg String.mk he, congrArg String.mk hdte, congrArg String.mk hrest2⟩

/-- C1 counterexample: the composite key joins the three fields with the
two-character delimiter, so the scheduled record (employee "a||b", date "c",
location "d") collides with the timesheet record (employee "a", date
"b||c", location "d"): no timesheet record has a string-equal key-field
triple, all key fields are non-empty, yet the scheduled record is NOT
reported as missed. -/
theorem missed_triple_collision_cex :
    filteredScheduled [[("employee", some "a||b"), ("date", some "c"),
        ("location", some "d")]]
      = [[("employee", "a||b"), ("date", "c"), ("location", "d")]]
    ∧ hasAllKeys [("employee", "a||b"), ("date", "c"), ("location", "d")] = true
    ∧ ([[("employee", some "a"), ("date", some "b||c"),
        ("location", some "d")]] : List RawRecord).map normalizeRowKeys
      = [[("employee", "a"), ("date", "b||c"), ("location", "d")]]
    ∧ hasAllKeys [("employee", "a"), ("date", "b||c"), ("location", "d")] = true
    ∧ ¬ sameKeyTriple [("employee", "a"), ("date", "b||c"), ("location", "d")]
        [("employee", "a||b"), ("date", "c"), ("location", "d")]
    ∧ missedRecords [[("employee", some "a||b"), ("date", some "c"),
        ("location", some "d")]]
        [[("employee", some "a"), ("date", some "b||c"), ("location", some "d")]]
      = [] := by
  refine ⟨by decide, by decide, by decide, by decide, by decide, by decide⟩

/-- C1 amended: provided no key-field value contains the pipe character used
by the key delimiter, a filtered scheduled record is reported as missed iff
all three of its key fields are non-empty and no (normalized) timesheet
record with all three key fields non-empty has a string-equal
(employee, date, location) triple; scheduled records missing a key field
are neither matched nor reported, and timesheet records missing a key field
contribute no key to the matching set. -/
theorem missed_iff_no_matching_triple (scheduledParsed timesheetsParsed : List RawRecord)
    (r : NormalizedRecord) (hr : r ∈ filteredScheduled scheduledParsed)
    (hpr : pipeFreeKeys r)
    (hpt : ∀ t ∈ timesheetsParsed.map normalizeRowKeys, pipeFreeKeys t) :
    r ∈ missedRecords scheduledParsed timesheetsParsed
      ↔ (hasAllKeys r = true
         ∧ ∀ t ∈ timesheetsParsed.map normalizeRowKeys,
             hasAllKeys t = true → ¬ sameKeyTriple t r) := by
  have hkeep : keepRow r = true := (List.mem_filter.mp hr).2
  rw [mem_missedRecords_iff hr]
  constructor
  · rintro ⟨h1, h2⟩
    refine ⟨h1, fun t ht htk htrip => ?_⟩
    have : (workedSet timesheetsParsed).contains (keyOf r) = true := by
      refine mem_workedSet_iff.mpr ⟨t, ?_, htk, keyOf_of_sameKeyTriple htrip⟩
      refine List.mem_filter.mpr ⟨ht, ?_⟩
      rw [keepRow_of_sameKeyTriple htrip]
      exact hkeep
    rw [this] at h2
    exact absurd h2 (by simp)
  · rintro ⟨h1, h2⟩
    refine ⟨h1, ?_⟩
    cases hc : (workedSet timesheetsParsed).contains (keyOf r) with
    | false => rfl
    | true =>
      obtain ⟨t, ht, htk, htkey⟩ := mem_workedSet_iff.mp hc
      have htm : t ∈ timesheetsParsed.map normalizeRowKeys := (List.mem_filter.mp ht).1
      exact absurd (keyOf_inj (hpt t htm) hpr htkey) (h2 t htm htk)

/-- C1 witness: with an empty timesheet file, the single well-formed
scheduled record is reported as missed. -/
theorem missed_iff_no_matching_triple_witness :
    [("employee", "x"), ("date", "1"), ("location", "y")]
      ∈ missedRecords [[("employee", some "x"), ("date", some "1"),
          ("location", some "y")]] [] :=
  (missed_iff_no_matching_triple
      [[("employee", some "x"), ("date", some "1"), ("location", some "y")]] []
      [("employee", "x"), ("date", "1"), ("location", "y")]
      (by decide) (by decide) (by decide)).mpr (by decide)

/-- C6 counterexample: reconciliation-key values are only trimmed, never
lower-cased, so the scheduled record with employee "A" and the timesheet
record with employee "a" — whose key fields are equal after lower-casing —
do NOT reconcile: the scheduled record is still reported as missed. -/
theorem reconcile_case_sensitive_cex :
    jsLower (getV [("employee", "A"), ("date", "2024-01-01"), ("location", "X")] "employee")
      = jsLower (getV [("employee", "a"), ("date", "2024-01-01"), ("location", "X")] "employee")
    ∧ filteredScheduled [[("employee", some "A"), ("date", some "2024-01-01"),
        ("location", some "X")]]
      = [[("employee", "A"), ("date", "2024-01-01"), ("location", "X")]]
    ∧ filteredTimesheets [[("employee", some "a"), ("date", some "2024-01-01"),
        ("location", some "X")]]
      = [[("employee", "a"), ("date", "2024-01-01"), ("location", "X")]]
    ∧ hasAllKeys [("employee", "A"), ("date", "2024-01-01"), ("location", "X")] = true
    ∧ hasAllKeys [("employee", "a"), ("date", "2024-01-01"), ("location", "X")] = true
    ∧ missedRecords [[("employee", some "A"), ("date", some "2024-01-01"),
        ("location", some "X")]]
        [[("employee", some "a"), ("date", some "2024-01-01"), ("location", some "X")]]
      = [[("employee", "A"), ("date", "2024-01-01"), ("location", "X")]] := by
  refine ⟨by decide, by decide, by decide, by decide, by decide, by decide⟩

/-- C6 amended: the reconciliation key uses the normalized field values,
which are trimmed but NOT lower-cased, and is compared case-sensitively: a
filtered scheduled record reconciles (is suppressed from the missed report)
iff some filtered timesheet record with all key fields non-empty has the
exact same composite key string, so any textual difference in a key value —
including letter case and date formatting — prevents a match. -/
theorem reconcile_iff_exact_key (scheduledParsed timesheetsParsed : List RawRecord)
    (r : NormalizedRecord) (hr : r ∈ filteredScheduled scheduledParsed) :
    r ∈ missedRecords scheduledParsed timesheetsParsed
      ↔ (hasAllKeys r = true
         ∧ ∀ t ∈ filteredTimesheets timesheetsParsed,
             hasAllKeys t = true → keyOf t ≠ keyOf r) := by
  rw [mem_missedRecords_iff hr]
  constructor
  · rintro ⟨h1, h2⟩
    refine ⟨h1, fun t ht htk htkey => ?_⟩
    have : (workedSet timesheetsParsed).contains (keyOf r) = true :=
      mem_workedSet_iff.mpr ⟨t, ht, htk, htkey⟩
    rw [this] at h2
    exact absurd h2 (by simp)
  · rintro ⟨h1, h2⟩
    refine ⟨h1, ?_⟩
    cases hc : (workedSet timesheetsParsed).contains (keyOf r) with
    | false => rfl
    | true =>
      obtain ⟨t, ht, htk, htkey⟩ := mem_workedSet_iff.mp hc
      exact absurd htkey (h2 t ht htk)

/-- C6 witness: a scheduled record whose exact key also appears in the
timesheets is suppressed from the missed report. -/
theorem reconcile_iff_exact_key_witness :
    [("employee", "w"), ("date", "2"), ("location", "z")]
      ∉ missedRecords
          [[("employee", some "w"), ("date", some "2"), ("location", some "z")]]
          [[("employee", some "w"), ("date", some "2"), ("location", some "z")]] := by
  intro hmem
  have h := (reconcile_iff_exact_key
      [[("employee", some "w"), ("date", some "2"), ("location", some "z")]]
      [[("employee", some "w"), ("date", some "2"), ("location", some "z")]]
      [("employee", "w"), ("date", "2"), ("location", "z")]
      (by decide)).mp hmem
  exact absurd h (by decide)

end Ecp
